import Mathlib

/-!
Verification of the `action` accumulator package (github.com/gdotgordon/action).

The Go source keeps, per action name, a running count, sum and average of the
durations submitted through `AddAction`, together with a sorted list of the
action names maintained by a binary-search insertion (`insertSorted`), and
reports a snapshot of (name, average) pairs through `GetStats`.

Embedding conventions:
* Go `float64` durations are modelled as exact rationals (`ℚ`); the Go code
  recomputes `Avg` as `sum / count` on every update and this arithmetic is
  idealised as exact.
* The Go map `map[string]*Item` is modelled as an association list with
  `mapLookup` / `mapInsert`; `GetStats` reads items only through the map, so
  pointer sharing is invisible to the model.
* `json.Unmarshal` into `*Input` is a library call (encoding/json); it is
  modelled by `unmarshalInput` over a small payload type that distinguishes the
  cases the code branches on: a malformed document, the JSON document `null`
  (which unmarshals successfully and leaves the pointer nil), and an object
  with optional `action` / `time` fields (absent fields decode to the zero
  value, per encoding/json semantics).
* A nil-pointer dereference (Go run-time panic) is the `AddResult.panicked`
  outcome; returning an error leaves the accumulator untouched exactly as the
  Go code returns before taking the lock.
-/

namespace Action

/-- `Input` from src/main.go: the unmarshalled input of `AddAction`
(`Action string`, `Time float64`). -/
structure Input where
  action : String
  time : ℚ
deriving DecidableEq

/-- `Item` from src/main.go: per-action data (`Action`, `Avg` exported and
serialized; `count`, `sum` unexported, never serialized). -/
structure Item where
  action : String
  avg : ℚ
  count : ℕ
  sum : ℚ
deriving DecidableEq

/-- `Accumulator` from src/main.go: the hash map of action key to item,
plus the sorted list of keys.  (The `sync.RWMutex` has no data content;
the lock discipline is modelled separately as an event trace.) -/
structure Accumulator where
  items : List (String × Item)
  keys : List String
deriving DecidableEq

/-- `New` from src/main.go: an accumulator with an empty map and nil key slice. -/
def Accumulator.new : Accumulator := ⟨[], []⟩

/-- The payloads handed to `AddAction`, classified by how `json.Unmarshal`
into a `*Input` treats them: not decodable at all, the document `null`
(decodes, pointer stays nil), or an object with optional fields. -/
inductive Payload
| malformed
| null
| object (action : Option String) (time : Option ℚ)
deriving DecidableEq

/-- The errors `AddAction` can return: a `json.Unmarshal` error, or the
`fmt.Errorf` messages "missing action" / "negative time". -/
inductive GoErr
| unmarshalErr
| missingAction
| negativeTime
deriving DecidableEq

/-- Model of `json.Unmarshal([]byte(action), &input)` with `input : *Input`:
a malformed document is an error; `null` succeeds leaving the pointer nil
(`none`); an object yields an `Input` whose absent fields hold Go zero
values (`""`, `0`). -/
def unmarshalInput : Payload → Except GoErr (Option Input)
| .malformed => .error .unmarshalErr
| .null => .ok none
| .object a t => .ok (some ⟨a.getD "", t.getD 0⟩)

/-- Outcome of one `AddAction` call: a run-time panic (nil dereference), or a
normal return carrying the `error` result and the accumulator state after the
call. -/
inductive AddResult
| panicked
| result (r : Except GoErr Unit) (acc : Accumulator)

/-- Lookup in the model of the Go map `items`. -/
def mapLookup (m : List (String × Item)) (k : String) : Option Item :=
  match m with
  | [] => none
  | (k', v) :: rest => if k' = k then some v else mapLookup rest k

/-- Insert-or-replace in the model of the Go map `items`. -/
def mapInsert (m : List (String × Item)) (k : String) (v : Item) :
    List (String × Item) :=
  match m with
  | [] => [(k, v)]
  | (k', v') :: rest =>
      if k' = k then (k, v) :: rest else (k', v') :: mapInsert rest k v

/-- The binary-search loop of `insertSorted` (src/main.go) followed by its
post-loop insertion.  Go's `low`/`high` bounds are encoded as `lo` and
`hi1 = high + 1`, so the loop condition `low <= high` is `lo < hi1` and
`mid = (low + high) / 2 = (lo + hi1 - 1) / 2`.  The three-way
`strings.Compare` switch is the equality/less trichotomy. -/
def insertSortedLoop (key : String) (list : List String) (lo hi1 : ℕ) :
    List String :=
  if _h : lo < hi1 then
    let mid := (lo + hi1 - 1) / 2
    if key = list.getD mid "" then list
    else if key < list.getD mid "" then insertSortedLoop key list lo mid
    else insertSortedLoop key list (mid + 1) hi1
  else if lo = list.length then list ++ [key]
  else list.take lo ++ key :: list.drop lo
termination_by hi1 - lo
decreasing_by
· have h1 : (lo + hi1 - 1) / 2 < hi1 := by omega
  omega
· have h1 : lo ≤ (lo + hi1 - 1) / 2 := by omega
  omega

/-- `insertSorted` from src/main.go: `low := 0; high := len(list) - 1`. -/
def insertSorted (key : String) (list : List String) : List String :=
  insertSortedLoop key list 0 list.length

/-- `AddAction` from src/main.go, transcribed branch by branch: unmarshal
(error returned as-is), the `input.Action == ""` and `input.Time < 0`
validations (note `input.Action` dereferences the pointer: on a decoded
`null` this is a nil dereference, i.e. a panic), then under the write lock
either a fresh item (`count = 1`, `sum = Avg = time`, key inserted into the
sorted list) or the running update `sum += time; Avg = sum / (count+1);
count++`. -/
def addAction (acc : Accumulator) (a : Payload) : AddResult :=
  match unmarshalInput a with
  | .error e => .result (.error e) acc
  | .ok none => .panicked
  | .ok (some input) =>
    if input.action = "" then .result (.error .missingAction) acc
    else if input.time < 0 then .result (.error .negativeTime) acc
    else
      match mapLookup acc.items input.action with
      | none =>
          .result (.ok ())
            { items := mapInsert acc.items input.action
                ⟨input.action, input.time, 1, input.time⟩,
              keys := insertSorted input.action acc.keys }
      | some item =>
          .result (.ok ())
            { items := mapInsert acc.items input.action
                { action := item.action,
                  avg := (item.sum + input.time) / ((item.count + 1 : ℕ) : ℚ),
                  count := item.count + 1,
                  sum := item.sum + input.time },
              keys := acc.keys }

/-- The shape of one serialized entry of the `GetStats` output: only the
exported, JSON-tagged fields `Action` and `Avg` of `Item` appear; the
unexported `count` and `sum` are never serialized. -/
structure OutItem where
  action : String
  avg : ℚ
deriving DecidableEq

/-- Serialization of one `Item` by `json.MarshalIndent`: exported fields only. -/
def serializeItem (it : Item) : OutItem := ⟨it.action, it.avg⟩

/-- `GetStats` from src/main.go: copy the item pointers out of the map in
sorted-key order (a missing key would copy a nil pointer, hence `Option`),
then serialize each. -/
def getStats (acc : Accumulator) : List (Option OutItem) :=
  acc.keys.map fun k => (mapLookup acc.items k).map serializeItem

/-- `GetStats` with the state threaded explicitly: the function only reads
the accumulator, so the state it leaves behind is the one it received. -/
def getStatsSt (acc : Accumulator) : List (Option OutItem) × Accumulator :=
  (getStats acc, acc)

/-- One `AddAction` call viewed as a state transition.  On a panic the
process dies before any mutation (the dereference happens before the lock is
taken), so the state at that point is the unchanged accumulator. -/
def step (acc : Accumulator) (p : Payload) : Accumulator :=
  match addAction acc p with
  | .panicked => acc
  | .result _ a => a

/-- The state after a sequence of `AddAction` calls from a given start. -/
def runPayloads (ps : List Payload) (acc : Accumulator) : Accumulator :=
  ps.foldl step acc

/-- A well-formed event `(name, duration)` as the payload object
`{"action": name, "time": duration}`. -/
def eventPayload (e : String × ℚ) : Payload := .object (some e.1) (some e.2)

/-- The accumulator obtained by feeding a list of events into a fresh
accumulator. -/
def runEvents (evs : List (String × ℚ)) : Accumulator :=
  runPayloads (evs.map eventPayload) Accumulator.new

/-- The decoded input of a payload when `AddAction` accepts it (decodes to a
non-nil `Input` with non-empty name and non-negative time), `none` otherwise. -/
def decodeValid (p : Payload) : Option Input :=
  match unmarshalInput p with
  | .ok (some i) => if i.action ≠ "" ∧ 0 ≤ i.time then some i else none
  | _ => none

/-- The durations successfully recorded for a given name by a payload
sequence, in order. -/
def recordedTimes (ps : List Payload) (name : String) : List ℚ :=
  ps.filterMap fun p =>
    match decodeValid p with
    | some i => if i.action = name then some i.time else none
    | none => none

/-! ### Association-list map lemmas -/

theorem mapLookup_mapInsert (m : List (String × Item)) (k k2 : String) (v : Item) :
    mapLookup (mapInsert m k v) k2 = if k = k2 then some v else mapLookup m k2 := by
  induction m with
  | nil => simp [mapLookup, mapInsert]
  | cons hd tl ih =>
    obtain ⟨k', v'⟩ := hd
    by_cases h1 : k' = k
    · subst h1
      by_cases h2 : k' = k2 <;> simp [mapLookup, mapInsert, h2]
    · by_cases h2 : k' = k2
      · subst h2
        have : ¬ k = k' := fun h => h1 h.symm
        simp [mapLookup, mapInsert, h1, this]
      · simp [mapLookup, mapInsert, h1, h2, ih]

/-! ### Correctness of the binary-search insertion -/

theorem insertSortedLoop_exit (key : String) (l : List String) (lo : ℕ)
    (hlen : lo ≤ l.length)
    (hlow : ∀ i, i < lo → l.getD i "" < key)
    (hhigh : ∀ i, lo ≤ i → i < l.length → key < l.getD i "") :
    key ∉ l ∧ insertSortedLoop key l lo lo = l.take lo ++ key :: l.drop lo := by
  constructor
  · intro hmem
    obtain ⟨i, hi, hgi⟩ := List.mem_iff_getElem.mp hmem
    have hgd : l.getD i "" = key := by rw [List.getD_eq_getElem l "" hi, hgi]
    rcases lt_or_ge i lo with hc | hc
    · exact absurd hgd (ne_of_lt (hlow i hc))
    · exact absurd hgd.symm (ne_of_lt (hhigh i hc hi))
  · rw [insertSortedLoop]
    rw [dif_neg (lt_irrefl lo)]
    by_cases hc : lo = l.length
    · subst hc
      simp
    · rw [if_neg hc]

theorem insertSortedLoop_spec (key : String) (l : List String)
    (hs : l.Pairwise (· < ·)) :
    ∀ n lo hi1, hi1 - lo ≤ n → lo ≤ hi1 → hi1 ≤ l.length →
    (∀ i, i < lo → l.getD i "" < key) →
    (∀ i, hi1 ≤ i → i < l.length → key < l.getD i "") →
    (key ∈ l → insertSortedLoop key l lo hi1 = l) ∧
    (key ∉ l → ∃ p, p ≤ l.length ∧
      (∀ i, i < p → l.getD i "" < key) ∧
      (∀ i, p ≤ i → i < l.length → key < l.getD i "") ∧
      insertSortedLoop key l lo hi1 = l.take p ++ key :: l.drop p) := by
  have hpg : ∀ i j, i < j → (hj : j < l.length) → l.getD i "" < l.getD j "" := by
    intro i j hij hj
    have hi : i < l.length := lt_trans hij hj
    rw [List.getD_eq_getElem l "" hi, List.getD_eq_getElem l "" hj]
    exact List.pairwise_iff_getElem.mp hs i j hi hj hij
  intro n
  induction n with
  | zero =>
    intro lo hi1 hn hle hlen hlow hhigh
    have hq : lo = hi1 := by omega
    subst hq
    obtain ⟨hnm, heq⟩ := insertSortedLoop_exit key l lo hlen hlow hhigh
    exact ⟨fun h => absurd h hnm,
      fun _ => ⟨lo, hlen, hlow, hhigh, heq⟩⟩
  | succ n ih =>
    intro lo hi1 hn hle hlen hlow hhigh
    by_cases hc : lo < hi1
    · have hmlo : lo ≤ (lo + hi1 - 1) / 2 := by omega
      have hmhi : (lo + hi1 - 1) / 2 < hi1 := by omega
      have hmlen : (lo + hi1 - 1) / 2 < l.length := lt_of_lt_of_le hmhi hlen
      rw [insertSortedLoop, dif_pos hc]
      by_cases he : key = l.getD ((lo + hi1 - 1) / 2) ""
      · rw [if_pos he]
        have hkey : key ∈ l := by
          rw [he, List.getD_eq_getElem l "" hmlen]
          exact List.getElem_mem hmlen
        exact ⟨fun _ => rfl, fun h => absurd hkey h⟩
      · rw [if_neg he]
        by_cases hlt : key < l.getD ((lo + hi1 - 1) / 2) ""
        · rw [if_pos hlt]
          refine ih lo ((lo + hi1 - 1) / 2) (by omega) hmlo (le_of_lt hmlen) hlow ?_
          intro i hmi hil
          rcases eq_or_lt_of_le hmi with h2 | h2
          · rw [← h2]; exact hlt
          · exact lt_trans hlt (hpg _ i h2 hil)
        · rw [if_neg hlt]
          have hgt : l.getD ((lo + hi1 - 1) / 2) "" < key :=
            lt_of_le_of_ne (not_lt.mp hlt) (fun h => he h.symm)
          refine ih ((lo + hi1 - 1) / 2 + 1) hi1 (by omega) (by omega) hlen ?_ hhigh
          intro i hi
          rcases (by omega : i < (lo + hi1 - 1) / 2 ∨ i = (lo + hi1 - 1) / 2) with h2 | h2
          · exact lt_trans (hpg i _ h2 hmlen) hgt
          · rw [h2]; exact hgt
    · have hq : lo = hi1 := by omega
      subst hq
      obtain ⟨hnm, heq⟩ := insertSortedLoop_exit key l lo hlen hlow hhigh
      exact ⟨fun h => absurd h hnm,
        fun _ => ⟨lo, hlen, hlow, hhigh, heq⟩⟩

theorem insertSorted_cases (key : String) (l : List String)
    (hs : l.Pairwise (· < ·)) :
    (key ∈ l → insertSorted key l = l) ∧
    (key ∉ l → ∃ p, p ≤ l.length ∧
      (∀ i, i < p → l.getD i "" < key) ∧
      (∀ i, p ≤ i → i < l.length → key < l.getD i "") ∧
      insertSorted key l = l.take p ++ key :: l.drop p) := by
  have := insertSortedLoop_spec key l hs l.length 0 l.length (by omega) (by omega)
    (le_refl _) (fun i hi => absurd hi (Nat.not_lt_zero i))
    (fun i h1 h2 => absurd (lt_of_le_of_lt h1 h2) (lt_irrefl _))
  exact this

theorem insertSorted_insert_spec (key : String) (l : List String)
    (hs : l.Pairwise (· < ·)) (hmem : key ∉ l) :
    (insertSorted key l).Pairwise (· < ·) ∧
    (insertSorted key l).Nodup ∧
    (∀ x, x ∈ insertSorted key l ↔ x = key ∨ x ∈ l) := by
  obtain ⟨p, hp, hlow, hhigh, heq⟩ := (insertSorted_cases key l hs).2 hmem
  have htake : ∀ x ∈ l.take p, x < key := by
    intro x hx
    obtain ⟨i, hi, hix⟩ := List.mem_iff_getElem.mp hx
    have hip : i < p := by simp at hi; omega
    have hil : i < l.length := by simp at hi; omega
    have hx2 : l[i] = x := by rw [← hix]; simp [List.getElem_take]
    rw [← hx2, ← List.getD_eq_getElem l "" hil]
    exact hlow i hip
  have hdrop : ∀ y ∈ l.drop p, key < y := by
    intro y hy
    obtain ⟨i, hi, hiy⟩ := List.mem_iff_getElem.mp hy
    have hil : p + i < l.length := by simp at hi; omega
    have hy2 : l[p + i] = y := by rw [← hiy]; simp [List.getElem_drop]
    rw [← hy2, ← List.getD_eq_getElem l "" hil]
    exact hhigh (p + i) (Nat.le_add_right p i) hil
  have hsorted : (insertSorted key l).Pairwise (· < ·) := by
    rw [heq, List.pairwise_append]
    refine ⟨List.Pairwise.sublist (List.take_sublist p l) hs, ?_, ?_⟩
    · rw [List.pairwise_cons]
      exact ⟨hdrop, List.Pairwise.sublist (List.drop_sublist p l) hs⟩
    · intro a ha b hb
      rcases List.mem_cons.mp hb with hb | hb
      · rw [hb]; exact htake a ha
      · exact lt_trans (htake a ha) (hdrop b hb)
  refine ⟨hsorted, List.Pairwise.imp (fun h => ne_of_lt h) hsorted, ?_⟩
  intro x
  have hiff : x ∈ l ↔ x ∈ l.take p ∨ x ∈ l.drop p := by
    conv_lhs => rw [← List.take_append_drop p l]
    exact List.mem_append
  rw [heq]
  simp only [List.mem_append, List.mem_cons, hiff]
  tauto

theorem insertSorted_sorted (key : String) (l : List String)
    (hs : l.Pairwise (· < ·)) : (insertSorted key l).Pairwise (· < ·) := by
  by_cases h : key ∈ l
  · rw [(insertSorted_cases key l hs).1 h]; exact hs
  · exact (insertSorted_insert_spec key l hs h).1

theorem insertSorted_mem_iff (key : String) (l : List String)
    (hs : l.Pairwise (· < ·)) (x : String) :
    x ∈ insertSorted key l ↔ x = key ∨ x ∈ l := by
  by_cases h : key ∈ l
  · rw [(insertSorted_cases key l hs).1 h]
    constructor
    · exact fun hx => Or.inr hx
    · rintro (rfl | hx)
      · exact h
      · exact hx
  · exact (insertSorted_insert_spec key l hs h).2.2 x

/-! ### Recorded-time bookkeeping -/

theorem recordedTimes_append (ps : List Payload) (p : Payload) (name : String) :
    recordedTimes (ps ++ [p]) name =
      recordedTimes ps name ++ recordedTimes [p] name := by
  simp [recordedTimes, List.filterMap_append]

theorem recordedTimes_single_none (p : Payload) (h : decodeValid p = none)
    (name : String) : recordedTimes [p] name = [] := by
  simp [recordedTimes, h]

theorem recordedTimes_single_some (p : Payload) (i : Input)
    (h : decodeValid p = some i) (name : String) :
    recordedTimes [p] name = if i.action = name then [i.time] else [] := by
  by_cases hc : i.action = name <;> simp [recordedTimes, h, hc]

/-! ### The accumulator invariant -/

/-- The invariant tying an accumulator state to the payload sequence that
produced it: the key list is strictly sorted; a name is in the key list
exactly when it is in the map; every stored item carries its own name, a
count of at least one equal to the number of successfully recorded events
for that name, the sum of their durations, and the average `sum / count`;
and names absent from the map have no recorded events. -/
def Inv (ps : List Payload) (acc : Accumulator) : Prop :=
  acc.keys.Pairwise (· < ·) ∧
  (∀ n, n ∈ acc.keys ↔ (mapLookup acc.items n).isSome) ∧
  (∀ n it, mapLookup acc.items n = some it →
    it.action = n ∧ 1 ≤ it.count ∧
    it.count = (recordedTimes ps n).length ∧
    it.sum = (recordedTimes ps n).sum ∧
    it.avg = it.sum / (it.count : ℚ)) ∧
  (∀ n, mapLookup acc.items n = none → recordedTimes ps n = [])

theorem step_of_invalid (acc : Accumulator) (p : Payload)
    (h : decodeValid p = none) : step acc p = acc := by
  cases hu : unmarshalInput p with
  | error e => simp [step, addAction, hu]
  | ok oi =>
    cases oi with
    | none => simp [step, addAction, hu]
    | some i =>
      simp only [decodeValid, hu] at h
      have hcond : ¬ (i.action ≠ "" ∧ 0 ≤ i.time) := by
        intro hc
        rw [if_pos hc] at h
        exact Option.noConfusion h
      rcases not_and_or.mp hcond with hc | hc
      · have ha : i.action = "" := not_not.mp hc
        simp [step, addAction, hu, ha]
      · have ht : i.time < 0 := not_le.mp hc
        have ha : ¬ i.action = "" ∨ i.action = "" := Or.symm (em _)
        by_cases ha : i.action = ""
        · simp [step, addAction, hu, ha]
        · simp [step, addAction, hu, ha, ht]

theorem step_of_valid (acc : Accumulator) (p : Payload) (i : Input)
    (h : decodeValid p = some i) :
    unmarshalInput p = .ok (some i) ∧ i.action ≠ "" ∧ 0 ≤ i.time ∧
    step acc p = match mapLookup acc.items i.action with
      | none =>
          { items := mapInsert acc.items i.action ⟨i.action, i.time, 1, i.time⟩,
            keys := insertSorted i.action acc.keys }
      | some item =>
          { items := mapInsert acc.items i.action
              { action := item.action,
                avg := (item.sum + i.time) / ((item.count + 1 : ℕ) : ℚ),
                count := item.count + 1,
                sum := item.sum + i.time },
            keys := acc.keys } := by
  cases hu : unmarshalInput p with
  | error e => simp only [decodeValid, hu] at h; exact Option.noConfusion h
  | ok oi =>
    cases oi with
    | none => simp only [decodeValid, hu] at h; exact Option.noConfusion h
    | some j =>
      simp only [decodeValid, hu] at h
      by_cases hc : j.action ≠ "" ∧ 0 ≤ j.time
      · rw [if_pos hc] at h
        have hj : j = i := Option.some_injective _ h
        subst hj
        refine ⟨rfl, hc.1, hc.2, ?_⟩
        have ht : ¬ j.time < 0 := not_lt.mpr hc.2
        simp only [step, addAction, hu, if_neg hc.1, if_neg ht]
        cases mapLookup acc.items j.action <;> rfl
      · rw [if_neg hc] at h
        exact absurd h (by simp)

theorem inv_new : Inv [] Accumulator.new := by
  refine ⟨List.Pairwise.nil, ?_, ?_, ?_⟩ <;>
    simp [Accumulator.new, mapLookup, recordedTimes]

theorem inv_step (ps : List Payload) (acc : Accumulator) (p : Payload)
    (h : Inv ps acc) : Inv (ps ++ [p]) (step acc p) := by
  obtain ⟨hsort, hmem, hstats, habs⟩ := h
  cases hd : decodeValid p with
  | none =>
    rw [step_of_invalid acc p hd]
    have hrec : ∀ n, recordedTimes (ps ++ [p]) n = recordedTimes ps n := by
      intro n
      rw [recordedTimes_append, recordedTimes_single_none p hd n, List.append_nil]
    refine ⟨hsort, hmem, ?_, ?_⟩
    · intro n it hl
      rw [hrec]
      exact hstats n it hl
    · intro n hl
      rw [hrec]
      exact habs n hl
  | some i =>
    obtain ⟨hu, hne, hnn, hstep⟩ := step_of_valid acc p i hd
    have hrec : ∀ n, recordedTimes (ps ++ [p]) n =
        recordedTimes ps n ++ (if i.action = n then [i.time] else []) := by
      intro n
      rw [recordedTimes_append, recordedTimes_single_some p i hd n]
    rw [hstep]
    cases hl : mapLookup acc.items i.action with
    | none =>
      refine ⟨insertSorted_sorted i.action acc.keys hsort, ?_, ?_, ?_⟩
      · intro n
        rw [insertSorted_mem_iff i.action acc.keys hsort n]
        simp only [mapLookup_mapInsert]
        by_cases hn : i.action = n
        · subst hn; simp
        · have hn2 : ¬ n = i.action := fun hh => hn hh.symm
          simp only [if_neg hn]
          rw [hmem n]
          constructor
          · rintro (hx | hx)
            · exact absurd hx hn2
            · exact hx
          · exact fun hx => Or.inr hx
      · intro n it hli
        rw [mapLookup_mapInsert] at hli
        by_cases hn : i.action = n
        · rw [if_pos hn] at hli
          have hit : it = ⟨i.action, i.time, 1, i.time⟩ := (Option.some_injective _ hli).symm
          subst hit
          have hab : recordedTimes ps n = [] := habs n (by rw [← hn]; exact hl)
          rw [hrec n, hab, if_pos hn]
          refine ⟨hn, le_refl 1, by simp, by simp, by simp⟩
        · rw [if_neg hn] at hli
          have hres := hstats n it hli
          rw [hrec n, if_neg hn, List.append_nil]
          exact hres
      · intro n hli
        rw [mapLookup_mapInsert] at hli
        by_cases hn : i.action = n
        · rw [if_pos hn] at hli
          exact Option.noConfusion hli
        · rw [if_neg hn] at hli
          rw [hrec n, if_neg hn, List.append_nil]
          exact habs n hli
    | some item =>
      have hitem := hstats i.action item hl
      refine ⟨hsort, ?_, ?_, ?_⟩
      · intro n
        simp only [mapLookup_mapInsert]
        by_cases hn : i.action = n
        · subst hn
          simp only [if_pos rfl, Option.isSome_some, iff_true]
          rw [hmem i.action, hl]
          rfl
        · rw [if_neg hn]
          exact hmem n
      · intro n it hli
        rw [mapLookup_mapInsert] at hli
        by_cases hn : i.action = n
        · rw [if_pos hn] at hli
          have hit := (Option.some_injective _ hli).symm
          subst hit
          subst hn
          obtain ⟨ha1, ha2, ha3, ha4, _⟩ := hitem
          rw [hrec i.action, if_pos rfl]
          refine ⟨ha1, Nat.succ_le_succ (Nat.zero_le _), ?_, ?_, ?_⟩
          · simp [ha3]
          · simp [ha4]
          · simp
        · rw [if_neg hn] at hli
          have hres := hstats n it hli
          rw [hrec n, if_neg hn, List.append_nil]
          exact hres
      · intro n hli
        rw [mapLookup_mapInsert] at hli
        by_cases hn : i.action = n
        · rw [if_pos hn] at hli
          exact Option.noConfusion hli
        · rw [if_neg hn] at hli
          rw [hrec n, if_neg hn, List.append_nil]
          exact habs n hli

theorem insertSorted_nil (key : String) : insertSorted key [] = [key] := by
  rw [insertSorted, insertSortedLoop]
  simp

theorem recordedTimes_events (name : String) :
    ∀ evs : List (String × ℚ), (∀ e ∈ evs, e.1 ≠ "" ∧ 0 ≤ e.2) →
    recordedTimes (evs.map eventPayload) name =
      (evs.filter fun e => decide (e.1 = name)).map Prod.snd := by
  intro evs
  induction evs with
  | nil => intro _; rfl
  | cons e evs ih =>
    intro hv
    have he := hv e (List.mem_cons_self e evs)
    have hrest : ∀ x ∈ evs, x.1 ≠ "" ∧ 0 ≤ x.2 :=
      fun x hx => hv x (List.mem_cons_of_mem e hx)
    have hdv : decodeValid (eventPayload e) = some ⟨e.1, e.2⟩ := by
      simp [decodeValid, eventPayload, unmarshalInput, he.1, he.2]
    have hih := ih hrest
    by_cases hc : e.1 = name
    · simp only [recordedTimes] at hih ⊢
      simp [List.filterMap_cons, hdv, hc, List.filter_cons, hih]
    · simp only [recordedTimes] at hih ⊢
      simp [List.filterMap_cons, hdv, hc, List.filter_cons, hih]

theorem inv_run (ps : List Payload) : Inv ps (runPayloads ps Accumulator.new) := by
  suffices h : ∀ qs ps0 acc, Inv ps0 acc → Inv (ps0 ++ qs) (runPayloads qs acc) by
    simpa using h ps [] Accumulator.new inv_new
  intro qs
  induction qs with
  | nil =>
    intro ps0 acc h
    simpa [runPayloads] using h
  | cons q qs ih =>
    intro ps0 acc h
    have h2 := ih (ps0 ++ [q]) (step acc q) (inv_step ps0 acc q h)
    rw [List.append_assoc] at h2
    simpa [runPayloads] using h2

/-! ### The `GetStats` lock/serialization order -/

/-- The statement-level events inside `GetStats`. -/
inductive GSEvent
| rlock
| copyItems
| marshalIndent
| runlock
deriving DecidableEq

/-- The order of operations in `GetStats` of src/main.go (package
`accumulator`): `mu.RLock()`, the loop copying the item pointers,
`json.MarshalIndent`, `mu.RUnlock()` -- the marshal call sits before the
unlock. -/
def getStatsEvents : List GSEvent :=
  [.rlock, .copyItems, .marshalIndent, .runlock]

/-- The order of operations in `GetStats` of src/unnamed/part_002 (package
`action`): there `mu.RUnlock()` precedes `json.MarshalIndent`. -/
def getStatsEventsAlt : List GSEvent :=
  [.rlock, .copyItems, .runlock, .marshalIndent]

/-! ### Claims -/

/-- Claim C1: for every sequence of valid events (non-empty name,
non-negative duration) recorded via `AddAction` into a fresh accumulator,
the final average stored for each name that received at least one event is
the arithmetic mean of all durations submitted for that name, whatever the
interleaving of names in the sequence. -/
theorem claim1_running_average (evs : List (String × ℚ))
    (hv : ∀ e ∈ evs, e.1 ≠ "" ∧ 0 ≤ e.2) (name : String)
    (hne : (evs.filter fun e => decide (e.1 = name)) ≠ []) :
    ∃ it, mapLookup (runEvents evs).items name = some it ∧
      it.avg = ((evs.filter fun e => decide (e.1 = name)).map Prod.snd).sum /
        (((evs.filter fun e => decide (e.1 = name)).length : ℕ) : ℚ) := by
  obtain ⟨hsort, hmem, hstats, habs⟩ := inv_run (evs.map eventPayload)
  have hbr := recordedTimes_events name evs hv
  cases hl : mapLookup (runEvents evs).items name with
  | none =>
    have h0 : recordedTimes (evs.map eventPayload) name = [] := habs name hl
    rw [hbr] at h0
    exact absurd (List.map_eq_nil_iff.mp h0) hne
  | some it =>
    obtain ⟨_, _, hcnt, hsum, havg⟩ := hstats name it hl
    refine ⟨it, rfl, ?_⟩
    rw [havg, hsum, hcnt, hbr, List.length_map]

/-- Witness for C1 at the repo example events. -/
theorem claim1_witness :
    (∀ e ∈ ([("jump", (100:ℚ)), ("jump", 200)] : List (String × ℚ)),
      e.1 ≠ "" ∧ 0 ≤ e.2) ∧
    (([("jump", (100:ℚ)), ("jump", 200)].filter
        fun e => decide (e.1 = "jump")) ≠ []) ∧
    ∃ it, mapLookup (runEvents [("jump", 100), ("jump", 200)]).items "jump" =
        some it ∧
      it.avg = (([("jump", (100:ℚ)), ("jump", 200)].filter
          (fun e => decide (e.1 = "jump"))).map Prod.snd).sum /
        ((([("jump", (100:ℚ)), ("jump", 200)].filter
          (fun e => decide (e.1 = "jump"))).length : ℕ) : ℚ) :=
  ⟨by decide, by decide,
    claim1_running_average [("jump", 100), ("jump", 200)] (by decide)
      "jump" (by decide)⟩

/-- The invalid inputs of claim C2: a payload that cannot be decoded, or an
object whose decoded action name is empty (absent or `""`), or whose decoded
duration is negative. -/
def invalidPayload (p : Payload) : Prop :=
  p = .malformed ∨
    ∃ a t, p = Payload.object a t ∧ (a.getD "" = "" ∨ t.getD 0 < 0)

/-- Claim C2: on every invalid input (undecodable payload, empty name, or
negative duration) `AddAction` returns an error and the accumulator it
leaves behind is exactly the accumulator it received, so the snapshot after
the failed call equals the snapshot before it. -/
theorem claim2_invalid_input (acc : Accumulator) (p : Payload)
    (h : invalidPayload p) :
    (∃ e, addAction acc p = .result (.error e) acc) ∧
    getStats (step acc p) = getStats acc := by
  have hres : ∃ e, addAction acc p = .result (.error e) acc := by
    rcases h with h | ⟨a, t, rfl, hat⟩
    · subst h; exact ⟨.unmarshalErr, rfl⟩
    · by_cases ha : a.getD "" = ""
      · exact ⟨.missingAction, by simp [addAction, unmarshalInput, ha]⟩
      · rcases hat with hat | hat
        · exact absurd hat ha
        · exact ⟨.negativeTime, by simp [addAction, unmarshalInput, ha, hat]⟩
  obtain ⟨e, he⟩ := hres
  refine ⟨⟨e, he⟩, ?_⟩
  rw [step, he]

/-- Witness for C2 at the undecodable payload and a fresh accumulator. -/
theorem claim2_witness :
    invalidPayload Payload.malformed ∧
    ((∃ e, addAction Accumulator.new Payload.malformed =
        .result (.error e) Accumulator.new) ∧
      getStats (step Accumulator.new Payload.malformed) =
        getStats Accumulator.new) :=
  ⟨Or.inl rfl, claim2_invalid_input Accumulator.new Payload.malformed (Or.inl rfl)⟩

/-- Claim C3: on a strictly sorted (hence duplicate-free) list,
`insertSorted` returns the list unchanged when the key is present; otherwise
it returns a strictly sorted, duplicate-free list whose elements are the old
ones plus the key, with the key inserted at a position `p` that has every
earlier element below the key and every later element above it (the leftmost
position with an element `≥` the key; `p = length` is the append case). -/
theorem claim3_insertSorted (key : String) (l : List String)
    (hs : l.Pairwise (· < ·)) :
    (key ∈ l → insertSorted key l = l) ∧
    (key ∉ l →
      (insertSorted key l).Pairwise (· < ·) ∧
      (insertSorted key l).Nodup ∧
      (∀ x, x ∈ insertSorted key l ↔ x = key ∨ x ∈ l) ∧
      ∃ p, p ≤ l.length ∧
        (∀ i, i < p → l.getD i "" < key) ∧
        (∀ i, p ≤ i → i < l.length → key < l.getD i "") ∧
        insertSorted key l = l.take p ++ key :: l.drop p) := by
  refine ⟨(insertSorted_cases key l hs).1, fun h => ?_⟩
  obtain ⟨h1, h2, h3⟩ := insertSorted_insert_spec key l hs h
  exact ⟨h1, h2, h3, (insertSorted_cases key l hs).2 h⟩

/-- Witness for C3 at key `"b"` and list `["a"]`. -/
theorem claim3_witness :
    (["a"] : List String).Pairwise (· < ·) ∧
    (("b" ∈ (["a"] : List String) → insertSorted "b" ["a"] = ["a"]) ∧
     ("b" ∉ (["a"] : List String) →
       (insertSorted "b" ["a"]).Pairwise (· < ·) ∧
       (insertSorted "b" ["a"]).Nodup ∧
       (∀ x, x ∈ insertSorted "b" ["a"] ↔ x = "b" ∨ x ∈ (["a"] : List String)) ∧
       ∃ p, p ≤ (["a"] : List String).length ∧
         (∀ i, i < p → (["a"] : List String).getD i "" < "b") ∧
         (∀ i, p ≤ i → i < (["a"] : List String).length →
           "b" < (["a"] : List String).getD i "") ∧
         insertSorted "b" ["a"] =
           (["a"] : List String).take p ++ "b" :: (["a"] : List String).drop p)) :=
  ⟨by simp, claim3_insertSorted "b" ["a"] (by simp)⟩

/-- Claim C4: after any sequence of `AddAction` calls from a fresh
accumulator, the snapshot is the list of the (name, average) pairs of the
names currently in the accumulator, in ascending name order, one entry per
name; the `OutItem` entries expose nothing beyond name and average, and the
snapshot of a fresh accumulator is the empty sequence. -/
theorem claim4_snapshot (ps : List Payload) :
    (∃ outs : List OutItem,
      getStats (runPayloads ps Accumulator.new) = outs.map some ∧
      outs.map OutItem.action = (runPayloads ps Accumulator.new).keys ∧
      (outs.map OutItem.action).Pairwise (· < ·) ∧
      (∀ o ∈ outs, ∃ it,
        mapLookup (runPayloads ps Accumulator.new).items o.action = some it ∧
        o.avg = it.avg) ∧
      (∀ n, (mapLookup (runPayloads ps Accumulator.new).items n).isSome →
        n ∈ outs.map OutItem.action)) ∧
    getStats Accumulator.new = [] := by
  obtain ⟨hsort, hmem, hstats, _⟩ := inv_run ps
  refine ⟨?_, rfl⟩
  refine ⟨(runPayloads ps Accumulator.new).keys.map
    (fun k => ⟨k, ((mapLookup (runPayloads ps Accumulator.new).items k).map
      Item.avg).getD 0⟩), ?_, ?_, ?_, ?_, ?_⟩
  · rw [getStats, List.map_map]
    refine List.map_congr_left ?_
    intro k hk
    have hsm : (mapLookup (runPayloads ps Accumulator.new).items k).isSome :=
      (hmem k).mp hk
    obtain ⟨it, hit⟩ := Option.isSome_iff_exists.mp hsm
    obtain ⟨ha, _⟩ := hstats k it hit
    simp [hit, serializeItem, ha, Function.comp]
  · rw [List.map_map]
    simp [Function.comp_def]
  · rw [List.map_map]
    simpa [Function.comp_def] using hsort
  · intro o ho
    obtain ⟨k, hk, hko⟩ := List.mem_map.mp ho
    have hsm : (mapLookup (runPayloads ps Accumulator.new).items k).isSome :=
      (hmem k).mp hk
    obtain ⟨it, hit⟩ := Option.isSome_iff_exists.mp hsm
    refine ⟨it, ?_, ?_⟩
    · rw [← hko]; simpa using hit
    · rw [← hko]; simp [hit]
  · intro n hsm
    have hk : n ∈ (runPayloads ps Accumulator.new).keys := (hmem n).mpr hsm
    rw [List.map_map]
    simpa [Function.comp] using hk

/-- Claim C5: after any sequence of `AddAction` calls from a fresh
accumulator (hence after every single intermediate operation, each prefix of
the sequence being such a sequence), the key list is sorted strictly
ascending, has no duplicates, and contains exactly the keys of the item
map. -/
theorem claim5_keys_invariant (ps : List Payload) :
    (runPayloads ps Accumulator.new).keys.Pairwise (· < ·) ∧
    (runPayloads ps Accumulator.new).keys.Nodup ∧
    ∀ n, n ∈ (runPayloads ps Accumulator.new).keys ↔
      (mapLookup (runPayloads ps Accumulator.new).items n).isSome := by
  obtain ⟨hsort, hmem, _, _⟩ := inv_run ps
  exact ⟨hsort, List.Pairwise.imp (fun h => ne_of_lt h) hsort, hmem⟩

/-- Claim C6: every item reachable by a sequence of operations from a fresh
accumulator has `count ≥ 1`, `avg = sum / count`, a count equal to the number
of successfully recorded events for its name, and a sum equal to the total of
their durations. -/
theorem claim6_item_invariant (ps : List Payload) (name : String) (it : Item)
    (hl : mapLookup (runPayloads ps Accumulator.new).items name = some it) :
    1 ≤ it.count ∧
    it.avg = it.sum / (it.count : ℚ) ∧
    it.count = (recordedTimes ps name).length ∧
    it.sum = (recordedTimes ps name).sum := by
  obtain ⟨_, _, hstats, _⟩ := inv_run ps
  obtain ⟨_, h1, h2, h3, h4⟩ := hstats name it hl
  exact ⟨h1, h4, h2, h3⟩

/-- Witness for C6 at a single recorded event. -/
theorem claim6_witness :
    (mapLookup (runPayloads [Payload.object (some "jump") (some 100)]
        Accumulator.new).items "jump" = some ⟨"jump", 100, 1, 100⟩) ∧
    (1 ≤ (⟨"jump", 100, 1, 100⟩ : Item).count ∧
     (⟨"jump", 100, 1, 100⟩ : Item).avg =
       (⟨"jump", 100, 1, 100⟩ : Item).sum /
         ((⟨"jump", 100, 1, 100⟩ : Item).count : ℚ) ∧
     (⟨"jump", 100, 1, 100⟩ : Item).count =
       (recordedTimes [Payload.object (some "jump") (some 100)] "jump").length ∧
     (⟨"jump", 100, 1, 100⟩ : Item).sum =
       (recordedTimes [Payload.object (some "jump") (some 100)] "jump").sum) := by
  have hl : mapLookup (runPayloads [Payload.object (some "jump") (some 100)]
      Accumulator.new).items "jump" = some ⟨"jump", 100, 1, 100⟩ := by
    simp [runPayloads, step, addAction, unmarshalInput, Accumulator.new,
      mapLookup, mapInsert, insertSorted_nil]
  exact ⟨hl, claim6_item_invariant [Payload.object (some "jump") (some 100)]
    "jump" ⟨"jump", 100, 1, 100⟩ hl⟩

/-- Claim C7: `GetStats` leaves the accumulator unchanged, and two
consecutive calls with no intervening `AddAction` return the same snapshot. -/
theorem claim7_snapshot_pure (acc : Accumulator) :
    (getStatsSt acc).2 = acc ∧
    (getStatsSt ((getStatsSt acc).2)).1 = (getStatsSt acc).1 :=
  ⟨rfl, rfl⟩

/-- Counterexample to C8 as stated: in `GetStats` of src/main.go the
`RUnlock` does NOT precede `json.MarshalIndent` -- the marshal happens while
the read lock is still held. -/
theorem claim8_counterexample :
    ¬ (getStatsEvents.indexOf GSEvent.runlock <
        getStatsEvents.indexOf GSEvent.marshalIndent) := by
  decide

/-- Amended C8: in the `accumulator` variant (src/main.go) the read lock is
acquired before the copy, the copy precedes serialization, and the lock is
released only after serialization; in the `action` variant
(src/unnamed/part_002) the lock is released before serialization, as the
original claim states. -/
theorem claim8_amended :
    (getStatsEvents.indexOf GSEvent.rlock <
        getStatsEvents.indexOf GSEvent.copyItems ∧
      getStatsEvents.indexOf GSEvent.copyItems <
        getStatsEvents.indexOf GSEvent.marshalIndent ∧
      getStatsEvents.indexOf GSEvent.marshalIndent <
        getStatsEvents.indexOf GSEvent.runlock) ∧
    (getStatsEventsAlt.indexOf GSEvent.rlock <
        getStatsEventsAlt.indexOf GSEvent.copyItems ∧
      getStatsEventsAlt.indexOf GSEvent.copyItems <
        getStatsEventsAlt.indexOf GSEvent.runlock ∧
      getStatsEventsAlt.indexOf GSEvent.runlock <
        getStatsEventsAlt.indexOf GSEvent.marshalIndent) := by
  decide

/-- Claim C9: on the payload `null` (a well-formed JSON document),
decoding succeeds with a nil `*Input`, and `AddAction` panics on the nil
dereference instead of returning an error, whatever the accumulator state. -/
theorem claim9_null_panics (acc : Accumulator) :
    unmarshalInput Payload.null = Except.ok none ∧
    addAction acc Payload.null = AddResult.panicked :=
  ⟨rfl, rfl⟩

/-- Claim C10: an object payload with a non-empty name and no `time` field
decodes with duration `0`, passes validation, and is recorded: a fresh item
with `count = 1` and sum `0`, or an update folding `0` into the average and
incrementing the count. -/
theorem claim10_missing_time (acc : Accumulator) (name : String)
    (h : name ≠ "") :
    unmarshalInput (Payload.object (some name) none) =
      Except.ok (some ⟨name, 0⟩) ∧
    (mapLookup acc.items name = none →
      addAction acc (Payload.object (some name) none) = .result (.ok ())
        { items := mapInsert acc.items name ⟨name, 0, 1, 0⟩,
          keys := insertSorted name acc.keys }) ∧
    (∀ it, mapLookup acc.items name = some it →
      addAction acc (Payload.object (some name) none) = .result (.ok ())
        { items := mapInsert acc.items name
            { action := it.action,
              avg := (it.sum + 0) / ((it.count + 1 : ℕ) : ℚ),
              count := it.count + 1,
              sum := it.sum + 0 },
          keys := acc.keys }) := by
  refine ⟨rfl, ?_, ?_⟩
  · intro hl
    simp [addAction, unmarshalInput, h, hl]
  · intro it hl
    simp [addAction, unmarshalInput, h, hl]

/-- Witness for C10 at a fresh accumulator and the name `"walk"`. -/
theorem claim10_witness :
    ("walk" : String) ≠ "" ∧
    (unmarshalInput (Payload.object (some "walk") none) =
        Except.ok (some ⟨"walk", 0⟩) ∧
      (mapLookup Accumulator.new.items "walk" = none →
        addAction Accumulator.new (Payload.object (some "walk") none) =
          .result (.ok ())
            { items := mapInsert Accumulator.new.items "walk" ⟨"walk", 0, 1, 0⟩,
              keys := insertSorted "walk" Accumulator.new.keys }) ∧
      (∀ it, mapLookup Accumulator.new.items "walk" = some it →
        addAction Accumulator.new (Payload.object (some "walk") none) =
          .result (.ok ())
            { items := mapInsert Accumulator.new.items "walk"
                { action := it.action,
                  avg := (it.sum + 0) / ((it.count + 1 : ℕ) : ℚ),
                  count := it.count + 1,
                  sum := it.sum + 0 },
              keys := Accumulator.new.keys })) :=
  ⟨by decide, claim10_missing_time Accumulator.new "walk" (by decide)⟩

end Action
